import Mathlib

/-!
Verification of the `HighlightedTextarea` tokenizer and highlight renderer.

The source program is a single-pass tokenizer for a small boolean-query
language (operators `AND`/`OR`/`NOT`, parentheses, `key=value` pairs, quoted
literals) together with a renderer that wraps each recognized token in a
type-tagged `span` container and HTML-escapes every piece of raw text.

Strings are modelled as `List Char`; the JavaScript cursor loops are modelled
with an exact fuel argument (each source loop advances its cursor by at least
one per iteration, so `text.length - i` iterations always suffice; the fuel-0
fallthrough coincides with the loop-guard exit).
-/

namespace HighlightedTextarea

/-- The token-type enumeration of the source (`TokenType`). -/
inductive TokenType where
  | logicalOperator
  | key
  | value
  | quote
  | parenthesis
  | equals
  | text
deriving DecidableEq

/-- The class-name string of each token type, as used in `token-${token.type}`. -/
def TokenType.str : TokenType → List Char
  | .logicalOperator => "logical-operator".data
  | .key => "key".data
  | .value => "value".data
  | .quote => "quote".data
  | .parenthesis => "parenthesis".data
  | .equals => "equals".data
  | .text => "text".data

/-- The `Token` record of the source: type, covered substring, half-open span. -/
structure Token where
  type : TokenType
  value : List Char
  start : Nat
  «end» : Nat
deriving DecidableEq

/-- JavaScript `text[i]` under the in-bounds guards of the source. -/
def charAt (text : List Char) (i : Nat) : Char := text.getD i '\x00'

/-- JavaScript `text.substring(a, b)` for `a ≤ b`: the characters in `[a, b)`. -/
def jsSubstring (text : List Char) (a b : Nat) : List Char := (text.take b).drop a

/-- JavaScript `text.substr(i, len)`: at most `len` characters starting at `i`. -/
def jsSubstr (text : List Char) (i len : Nat) : List Char := (text.drop i).take len

/-- The whitespace test `/\s/.test(char)` of the source (ECMAScript `\s`). -/
def isWhitespace (c : Char) : Bool :=
  c == '\t' || c == '\n' || c == '\x0b' || c == '\x0c' || c == '\r' || c == ' ' ||
  c == '\u00A0' || c == '\u1680' ||
  (decide ('\u2000' ≤ c) && decide (c ≤ '\u200A')) ||
  c == '\u2028' || c == '\u2029' || c == '\u202F' || c == '\u205F' ||
  c == '\u3000' || c == '\uFEFF'

/-- The continue-condition of the bare-text loop: not whitespace and none of the
six delimiter characters `( ) = " ' ”`. -/
def isTextChar (c : Char) : Bool :=
  !isWhitespace c && c != '(' && c != ')' && c != '=' && c != '"' && c != '\'' && c != '”'

/-- One `String.prototype.replace(/c/g, s)` pass: every occurrence of the single
character `c` is replaced by the string `s`. -/
def jsReplaceAll (c : Char) (s : List Char) : List Char → List Char
  | [] => []
  | x :: xs => (if x = c then s else [x]) ++ jsReplaceAll c s xs

def ampEnt : List Char := "&amp;".data
def ltEnt : List Char := "&lt;".data
def gtEnt : List Char := "&gt;".data
def quotEnt : List Char := "&quot;".data
def aposEnt : List Char := "&#039;".data

/-- The source's `escapeHtml`: five sequential global replaces, ampersand first,
then `<`, `>`, `"`, `'` in that order. -/
def escapeHtml (s : List Char) : List Char :=
  jsReplaceAll '\'' aposEnt
    (jsReplaceAll '"' quotEnt
      (jsReplaceAll '>' gtEnt
        (jsReplaceAll '<' ltEnt
          (jsReplaceAll '&' ampEnt s))))

/-- Per-character view of `escapeHtml`, used to reason about it. -/
def escChar (c : Char) : List Char :=
  if c = '&' then ampEnt
  else if c = '<' then ltEnt
  else if c = '>' then gtEnt
  else if c = '"' then quotEnt
  else if c = '\'' then aposEnt
  else [c]

/-- The closing-quote scan of the source: starting at `i`, advance while the
current character is not the quote `q` or is preceded by a backslash; stop at
the first genuine closing quote or at end of input.  `fuel = length - i`. -/
def findQuoteEnd (text : List Char) (q : Char) : Nat → Nat → Nat
  | 0, i => i
  | fuel + 1, i =>
    if i < text.length then
      if charAt text i != q || (decide (0 < i) && (charAt text (i - 1) == '\\')) then
        findQuoteEnd text q fuel (i + 1)
      else i
    else i

/-- The equals-sign lookahead of the key rule: the first position `≥ i` holding
`'='`, or the length of the input. -/
def findEq (text : List Char) : Nat → Nat → Nat
  | 0, i => i
  | fuel + 1, i =>
    if i < text.length then
      if charAt text i = '=' then i else findEq text fuel (i + 1)
    else i

/-- The key-trimming loop: decrement `keyEnd` while it exceeds `keyStart` and the
character before it is whitespace. -/
def trimBack (text : List Char) (keyStart : Nat) : Nat → Nat → Nat
  | 0, keyEnd => keyEnd
  | fuel + 1, keyEnd =>
    if decide (keyStart < keyEnd) && isWhitespace (charAt text (keyEnd - 1)) then
      trimBack text keyStart fuel (keyEnd - 1)
    else keyEnd

/-- The bare-text loop: advance while in bounds and on a text character. -/
def scanText (text : List Char) : Nat → Nat → Nat
  | 0, i => i
  | fuel + 1, i =>
    if decide (i < text.length) && isTextChar (charAt text i) then
      scanText text fuel (i + 1)
    else i

/-- The operator table `['AND', 'OR', 'NOT']`, in source order. -/
def logicalOperators : List (List Char) := [['A', 'N', 'D'], ['O', 'R'], ['N', 'O', 'T']]

/-- The operator loop: try each word in order; accept the first that matches
case-insensitively at `i` and is delimited by whitespace or input boundary on
both sides; a match that fails the boundary test falls through to the next word. -/
def tryOperators (text : List Char) (i : Nat) : List (List Char) → Option Nat
  | [] => none
  | op :: rest =>
    if (jsSubstr text i op.length).map Char.toUpper = op then
      if (decide (i = 0) || isWhitespace (charAt text (i - 1))) &&
         (decide (text.length ≤ i + op.length) || isWhitespace (charAt text (i + op.length))) then
        some op.length
      else tryOperators text i rest
    else tryOperators text i rest

/-- The position of the closing quote for a quote opened at `i`. -/
def quoteClose (text : List Char) (q : Char) (i : Nat) : Nat :=
  findQuoteEnd text q (text.length - (i + 1)) (i + 1)

/-- The quote branch of the scan loop (source lines 76–106). -/
def quoteStep (text : List Char) (i : Nat) : Option Token × Nat :=
  if quoteClose text (charAt text i) i < text.length ∧
     charAt text (quoteClose text (charAt text i) i) = charAt text i then
    (some ⟨TokenType.quote, jsSubstring text i (quoteClose text (charAt text i) i + 1), i,
       quoteClose text (charAt text i) i + 1⟩,
     quoteClose text (charAt text i) i + 1)
  else
    (some ⟨TokenType.quote, text.drop i, i, text.length⟩, text.length)

/-- The result of the equals lookahead started at cursor `i`. -/
def eqPos (text : List Char) (i : Nat) : Nat := findEq text (text.length - i) i

/-- The trimmed right end of the candidate key starting at `i`. -/
def keyEndPos (text : List Char) (i : Nat) : Nat :=
  trimBack text i (eqPos text i - i) (eqPos text i)

/-- The bare-text branch of the scan loop (source lines 162–185): emit a token
only when the run is non-empty. -/
def textStep (text : List Char) (i : Nat) : Option Token × Nat :=
  if i < scanText text (text.length - i) i then
    (some ⟨TokenType.text, jsSubstring text i (scanText text (text.length - i) i), i,
       scanText text (text.length - i) i⟩,
     scanText text (text.length - i) i)
  else (none, scanText text (text.length - i) i)

/-- The key branch (source lines 131–160) with its fallthrough to bare text. -/
def keyOrTextStep (text : List Char) (i : Nat) : Option Token × Nat :=
  if i + 1 < text.length then
    if eqPos text i < text.length ∧ charAt text (eqPos text i) = '=' then
      if i < keyEndPos text i then
        (some ⟨TokenType.key, jsSubstring text i (keyEndPos text i), i, keyEndPos text i⟩,
         keyEndPos text i)
      else textStep text i
    else textStep text i
  else textStep text i

/-- One iteration of the main scan loop at cursor `i < text.length`: the rules in
source priority order (whitespace, parenthesis, equals, quote, operator, key,
bare text).  Returns the emitted token, if any, and the new cursor. -/
def tokenizeStep (text : List Char) (i : Nat) : Option Token × Nat :=
  if isWhitespace (charAt text i) then (none, i + 1)
  else if charAt text i == '(' || charAt text i == ')' then
    (some ⟨TokenType.parenthesis, [charAt text i], i, i + 1⟩, i + 1)
  else if charAt text i == '=' then
    (some ⟨TokenType.equals, ['='], i, i + 1⟩, i + 1)
  else if charAt text i == '"' || charAt text i == '\'' || charAt text i == '”' then
    quoteStep text i
  else
    match tryOperators text i logicalOperators with
    | some len =>
      (some ⟨TokenType.logicalOperator, jsSubstring text i (i + len), i, i + len⟩, i + len)
    | none => keyOrTextStep text i

/-- The main scan loop (`while (i < n)`), with exact fuel: the token emitted by
the iteration (if any) is pushed, and the scan continues from the new cursor. -/
def tokenizeLoop (text : List Char) : Nat → Nat → List Token
  | 0, _ => []
  | fuel + 1, i =>
    if i < text.length then
      (tokenizeStep text i).1.toList ++ tokenizeLoop text fuel (tokenizeStep text i).2
    else []

/-- The tokenizer: the token-collection phase of `parseAndHighlight`. -/
def tokenize (text : List Char) : List Token := tokenizeLoop text text.length 0

/-- The opening wrapper `<span class="token-${token.type}">`. -/
def spanOpen (t : TokenType) : List Char :=
  "<span class=\"token-".data ++ t.str ++ "\">".data

/-- The closing wrapper `</span>`. -/
def spanClose : List Char := "</span>".data

/-- The opening wrapper without its angle brackets, used to reason about
tag stripping. -/
def spanMid (t : TokenType) : List Char :=
  "span class=\"token-".data ++ t.str ++ "\"".data

/-- The wrapped, escaped rendering of one token. -/
def renderToken (tok : Token) : List Char :=
  spanOpen tok.type ++ escapeHtml tok.value ++ spanClose

/-- The rendering loop of `parseAndHighlight` (source lines 187–207): escaped
filler before each token, the wrapped escaped token, then the escaped tail. -/
def renderLoop (text : List Char) : List Token → Nat → List Char
  | [], lastPos => if lastPos < text.length then escapeHtml (text.drop lastPos) else []
  | tok :: toks, lastPos =>
    (if lastPos < tok.start then escapeHtml (jsSubstring text lastPos tok.start) else []) ++
    renderToken tok ++ renderLoop text toks tok.«end»

/-- The renderer: text plus token sequence to markup. -/
def render (text : List Char) (tokens : List Token) : List Char := renderLoop text tokens 0

/-- The whole source function: tokenize, then render. -/
def parseAndHighlight (text : List Char) : List Char := render text (tokenize text)

/-- Modelled from the spec (§8 round-trip, "strip_tags" is named but not defined
in the source): remove every wrapper tag, i.e. drop each maximal `<`…`>` region
and keep all other characters.  `insideTag` records whether the scan is inside
a tag. -/
def stripTagsAux : List Char → Bool → List Char
  | [], _ => []
  | c :: rest, false => if c = '<' then stripTagsAux rest true else c :: stripTagsAux rest false
  | c :: rest, true => if c = '>' then stripTagsAux rest false else stripTagsAux rest true

/-- Modelled from the spec (§8): strip all wrapper tags from rendered markup. -/
def strip_tags (s : List Char) : List Char := stripTagsAux s false

/-- Modelled from the spec (§4.2, "undoing the entity escaping"): scan left to
right; whenever the next characters spell one of the five entity forms, replace
it by its character; every other character is kept. -/
def unescapeHtmlSpec : List Char → List Char
  | [] => []
  | c :: rest =>
    if c = '&' ∧ rest.take 4 = "amp;".data then '&' :: unescapeHtmlSpec (rest.drop 4)
    else if c = '&' ∧ rest.take 3 = "lt;".data then '<' :: unescapeHtmlSpec (rest.drop 3)
    else if c = '&' ∧ rest.take 3 = "gt;".data then '>' :: unescapeHtmlSpec (rest.drop 3)
    else if c = '&' ∧ rest.take 5 = "quot;".data then '"' :: unescapeHtmlSpec (rest.drop 5)
    else if c = '&' ∧ rest.take 5 = "#039;".data then '\'' :: unescapeHtmlSpec (rest.drop 5)
    else c :: unescapeHtmlSpec rest
termination_by l => l.length
decreasing_by all_goals simp [List.length_drop] <;> omega

/-- The span/content invariant of a token sequence produced from cursor `i`:
spans are non-empty, ordered, within bounds, and each token's `value` is the
exact covered substring. -/
def spansOk (text : List Char) : Nat → List Token → Prop
  | i, [] => i ≤ text.length
  | i, t :: ts =>
    i ≤ t.start ∧ t.start < t.«end» ∧ t.«end» ≤ text.length ∧
    t.value = jsSubstring text t.start t.«end» ∧ spansOk text t.«end» ts

/-- The gap invariant: every character strictly between consecutive token spans
(and before the first span, and after the last) is whitespace. -/
def gapsWhite (text : List Char) : Nat → List Token → Prop
  | i, [] => ∀ c ∈ text.drop i, isWhitespace c
  | i, t :: ts => (∀ c ∈ jsSubstring text i t.start, isWhitespace c) ∧ gapsWhite text t.«end» ts

/-! ### Properties of the scan helpers -/

lemma scanText_ge (text : List Char) : ∀ fuel i, i ≤ scanText text fuel i := by
  intro fuel
  induction fuel with
  | zero => intro i; simp [scanText]
  | succ f ih =>
    intro i
    simp only [scanText]
    split
    · exact le_trans (Nat.le_succ i) (ih (i + 1))
    · exact le_refl i

lemma scanText_le (text : List Char) :
    ∀ fuel i, i ≤ text.length → scanText text fuel i ≤ text.length := by
  intro fuel
  induction fuel with
  | zero => intro i hi; simpa [scanText] using hi
  | succ f ih =>
    intro i hi
    simp only [scanText]
    split
    · rename_i h
      simp only [Bool.and_eq_true, decide_eq_true_eq] at h
      exact ih (i + 1) h.1
    · exact hi

lemma scanText_adv (text : List Char) (i : Nat) (hi : i < text.length)
    (htc : isTextChar (charAt text i) = true) :
    ∀ fuel, 1 ≤ fuel → i + 1 ≤ scanText text fuel i := by
  intro fuel hf
  match fuel, hf with
  | f + 1, _ =>
    simp only [scanText]
    rw [if_pos (by simp [hi, htc])]
    exact scanText_ge text f (i + 1)

lemma findEq_ge (text : List Char) : ∀ fuel i, i ≤ findEq text fuel i := by
  intro fuel
  induction fuel with
  | zero => intro i; simp [findEq]
  | succ f ih =>
    intro i
    simp only [findEq]
    split
    · split
      · exact le_refl i
      · exact le_trans (Nat.le_succ i) (ih (i + 1))
    · exact le_refl i

lemma findEq_le (text : List Char) :
    ∀ fuel i, i ≤ text.length → findEq text fuel i ≤ text.length := by
  intro fuel
  induction fuel with
  | zero => intro i hi; simpa [findEq] using hi
  | succ f ih =>
    intro i hi
    simp only [findEq]
    split
    · rename_i h
      split
      · exact le_of_lt h
      · exact ih (i + 1) h
    · exact hi

lemma findEq_spec (text : List Char) :
    ∀ fuel i, text.length ≤ i + fuel →
      (∀ k, i ≤ k → k < findEq text fuel i → charAt text k ≠ '=') ∧
      (findEq text fuel i < text.length → charAt text (findEq text fuel i) = '=') := by
  intro fuel
  induction fuel with
  | zero =>
    intro i hle
    constructor
    · intro k hk hk'
      simp only [findEq] at hk'
      omega
    · intro hlt
      simp only [findEq] at hlt
      omega
  | succ f ih =>
    intro i hle
    simp only [findEq]
    split
    · rename_i hin
      split
      · rename_i heq
        refine ⟨fun k hk hk' => absurd (lt_of_le_of_lt hk hk') (lt_irrefl i), fun _ => heq⟩
      · rename_i hne
        have h2 := ih (i + 1) (by omega)
        refine ⟨fun k hk hk' => ?_, h2.2⟩
        rcases Nat.eq_or_lt_of_le hk with rfl | hlt
        · exact hne
        · exact h2.1 k hlt hk'
    · rename_i hout
      exact ⟨fun k hk hk' => by omega, fun hlt => absurd hlt hout⟩

lemma findQuoteEnd_ge (text : List Char) (q : Char) :
    ∀ fuel i, i ≤ findQuoteEnd text q fuel i := by
  intro fuel
  induction fuel with
  | zero => intro i; simp [findQuoteEnd]
  | succ f ih =>
    intro i
    simp only [findQuoteEnd]
    split
    · split
      · exact le_trans (Nat.le_succ i) (ih (i + 1))
      · exact le_refl i
    · exact le_refl i

lemma findQuoteEnd_le (text : List Char) (q : Char) :
    ∀ fuel i, i ≤ text.length → findQuoteEnd text q fuel i ≤ text.length := by
  intro fuel
  induction fuel with
  | zero => intro i hi; simpa [findQuoteEnd] using hi
  | succ f ih =>
    intro i hi
    simp only [findQuoteEnd]
    split
    · rename_i h
      split
      · exact ih (i + 1) h
      · exact le_of_lt h
    · exact hi

lemma findQuoteEnd_spec (text : List Char) (q : Char) :
    ∀ fuel i, text.length ≤ i + fuel →
      (∀ k, i ≤ k → k < findQuoteEnd text q fuel i →
        charAt text k ≠ q ∨ (0 < k ∧ charAt text (k - 1) = '\\')) ∧
      (findQuoteEnd text q fuel i < text.length →
        charAt text (findQuoteEnd text q fuel i) = q ∧
        ¬(0 < findQuoteEnd text q fuel i ∧
          charAt text (findQuoteEnd text q fuel i - 1) = '\\')) := by
  intro fuel
  induction fuel with
  | zero =>
    intro i hle
    constructor
    · intro k hk hk'
      simp only [findQuoteEnd] at hk'
      omega
    · intro hlt
      simp only [findQuoteEnd] at hlt
      omega
  | succ f ih =>
    intro i hle
    simp only [findQuoteEnd]
    split
    · rename_i hin
      split
      · rename_i hcont
        simp only [Bool.or_eq_true, bne_iff_ne, Bool.and_eq_true, decide_eq_true_eq,
          beq_iff_eq] at hcont
        have h2 := ih (i + 1) (by omega)
        refine ⟨fun k hk hk' => ?_, h2.2⟩
        rcases Nat.eq_or_lt_of_le hk with rfl | hlt
        · exact hcont
        · exact h2.1 k hlt hk'
      · rename_i hstop
        simp only [Bool.or_eq_true, bne_iff_ne, Bool.and_eq_true, decide_eq_true_eq,
          beq_iff_eq, not_or, not_and, Classical.not_not] at hstop
        push_neg at hstop
        refine ⟨fun k hk hk' => absurd (lt_of_le_of_lt hk hk') (lt_irrefl i),
          fun _ => ⟨hstop.1, fun hc => hstop.2 hc.1 hc.2⟩⟩
    · rename_i hout
      exact ⟨fun k hk hk' => by omega, fun hlt => absurd hlt hout⟩

lemma trimBack_le (text : List Char) (s : Nat) :
    ∀ fuel e, trimBack text s fuel e ≤ e := by
  intro fuel
  induction fuel with
  | zero => intro e; simp [trimBack]
  | succ f ih =>
    intro e
    simp only [trimBack]
    split
    · exact le_trans (ih (e - 1)) (Nat.sub_le e 1)
    · exact le_refl e

lemma trimBack_ge (text : List Char) (s : Nat) :
    ∀ fuel e, s ≤ e → s ≤ trimBack text s fuel e := by
  intro fuel
  induction fuel with
  | zero => intro e he; simpa [trimBack] using he
  | succ f ih =>
    intro e he
    simp only [trimBack]
    split
    · rename_i h
      simp only [Bool.and_eq_true, decide_eq_true_eq] at h
      exact ih (e - 1) (by omega)
    · exact he

lemma trimBack_ws (text : List Char) (s : Nat) :
    ∀ fuel e k, trimBack text s fuel e ≤ k → k < e → isWhitespace (charAt text k) = true := by
  intro fuel
  induction fuel with
  | zero =>
    intro e k hk hk'
    simp only [trimBack] at hk
    omega
  | succ f ih =>
    intro e k hk hk'
    simp only [trimBack] at hk
    revert hk
    split
    · rename_i h
      simp only [Bool.and_eq_true, decide_eq_true_eq] at h
      intro hk
      rcases Nat.lt_or_ge k (e - 1) with hlt | hge
      · exact ih (e - 1) k hk hlt
      · have : k = e - 1 := by omega
        subst this
        exact h.2
    · intro hk
      omega

lemma trimBack_stop (text : List Char) (s : Nat) :
    ∀ fuel e, e ≤ s + fuel → s < trimBack text s fuel e →
      isWhitespace (charAt text (trimBack text s fuel e - 1)) = false := by
  intro fuel
  induction fuel with
  | zero =>
    intro e he hlt
    simp only [trimBack] at hlt
    omega
  | succ f ih =>
    intro e he hlt
    simp only [trimBack] at hlt ⊢
    revert hlt
    split
    · rename_i h
      intro hlt
      exact ih (e - 1) (by omega) hlt
    · rename_i h
      intro hlt
      by_cases hws : isWhitespace (charAt text (e - 1)) = true
      · exact absurd (by simp [hlt, hws]) h
      · simp only [Bool.not_eq_true] at hws
        exact hws

lemma tryOperators_some (text : List Char) (i : Nat) :
    ∀ ops len, tryOperators text i ops = some len →
      ∃ op ∈ ops, op.length = len ∧
        (jsSubstr text i op.length).map Char.toUpper = op ∧
        (i = 0 ∨ isWhitespace (charAt text (i - 1)) = true) ∧
        (text.length ≤ i + op.length ∨ isWhitespace (charAt text (i + op.length)) = true) := by
  intro ops
  induction ops with
  | nil => intro len h; simp [tryOperators] at h
  | cons op rest ih =>
    intro len h
    simp only [tryOperators] at h
    revert h
    split
    · rename_i hmatch
      split
      · rename_i hbound
        intro h
        simp only [Bool.and_eq_true, Bool.or_eq_true, decide_eq_true_eq] at hbound
        exact ⟨op, by simp, Option.some.inj h, hmatch, hbound.1, hbound.2⟩
      · intro h
        obtain ⟨op', hmem, hrest⟩ := ih len h
        exact ⟨op', by simp [hmem], hrest⟩
    · intro h
      obtain ⟨op', hmem, hrest⟩ := ih len h
      exact ⟨op', by simp [hmem], hrest⟩

lemma opLen_pos : ∀ op ∈ logicalOperators, 0 < op.length := by decide

lemma opMatch_le (text : List Char) (i len : Nat) (op : List Char)
    (hm : (jsSubstr text i op.length).map Char.toUpper = op) (hl : op.length = len)
    (hpos : 0 < len) : i + len ≤ text.length := by
  have hlen : (jsSubstr text i op.length).length = op.length := by
    have h := congrArg List.length hm
    simpa [List.length_map] using h
  simp only [jsSubstr, List.length_take, List.length_drop] at hlen
  have hle : op.length ≤ text.length - i := min_eq_left_iff.mp hlen
  omega

/-! ### Substring lemmas -/

lemma charAt_eq_getElem (text : List Char) (i : Nat) (hi : i < text.length) :
    charAt text i = text[i] := by
  simp [charAt, List.getD_eq_getElem?_getD, List.getElem?_eq_getElem hi]

lemma jsSubstring_nil (text : List Char) (i : Nat) : jsSubstring text i i = [] := by
  apply List.drop_eq_nil_of_le
  simp [List.length_take]

lemma jsSubstring_all (text : List Char) (i : Nat) :
    jsSubstring text i text.length = text.drop i := by
  simp [jsSubstring, List.take_length]

lemma jsSubstring_single (text : List Char) (i : Nat) (hi : i < text.length) :
    jsSubstring text i (i + 1) = [charAt text i] := by
  have h1 : text.take (i + 1) = text.take i ++ [text[i]] := by
    rw [List.take_succ, List.getElem?_eq_getElem hi]
    rfl
  rw [jsSubstring, h1, List.drop_append_of_le_length (by simp [List.length_take]; omega),
    List.drop_eq_nil_of_le (by simp [List.length_take]), charAt_eq_getElem text i hi]
  rfl

lemma drop_segment (text : List Char) (a b : Nat) (hab : a ≤ b) (hb : b ≤ text.length) :
    text.drop a = jsSubstring text a b ++ text.drop b := by
  conv_lhs => rw [← List.take_append_drop b text]
  rw [List.drop_append_of_le_length (by simp [List.length_take]; omega)]
  rfl

/-! ### Properties of one scan-loop iteration -/

lemma textStep_some (text : List Char) (i : Nat) (hi : i < text.length) (t : Token) (j : Nat)
    (h : textStep text i = (some t, j)) :
    t.start = i ∧ t.«end» = j ∧ i < j ∧ j ≤ text.length ∧
      t.value = jsSubstring text i j ∧ t.type = TokenType.text := by
  unfold textStep at h
  split at h
  · rename_i hlt
    obtain ⟨ht, hj⟩ := Prod.mk.injEq _ _ _ _ ▸ h
    obtain ht := Option.some.inj ht
    subst hj
    subst ht
    exact ⟨rfl, rfl, hlt, scanText_le text _ i (le_of_lt hi), rfl, rfl⟩
  · simp at h

lemma keyOrTextStep_some (text : List Char) (i : Nat) (hi : i < text.length) (t : Token) (j : Nat)
    (h : keyOrTextStep text i = (some t, j)) :
    t.start = i ∧ t.«end» = j ∧ i < j ∧ j ≤ text.length ∧
      t.value = jsSubstring text i j ∧
      (t.type = TokenType.key ∨ t.type = TokenType.text) := by
  unfold keyOrTextStep at h
  split at h
  · split at h
    · split at h
      · rename_i h1 h2 h3
        obtain ⟨ht, hj⟩ := Prod.mk.injEq _ _ _ _ ▸ h
        obtain ht := Option.some.inj ht
        subst hj
        subst ht
        have hle : keyEndPos text i ≤ eqPos text i := trimBack_le text i _ _
        exact ⟨rfl, rfl, h3, by omega, rfl, Or.inl rfl⟩
      · obtain hh := textStep_some text i hi t j h
        exact ⟨hh.1, hh.2.1, hh.2.2.1, hh.2.2.2.1, hh.2.2.2.2.1, Or.inr hh.2.2.2.2.2⟩
    · obtain hh := textStep_some text i hi t j h
      exact ⟨hh.1, hh.2.1, hh.2.2.1, hh.2.2.2.1, hh.2.2.2.2.1, Or.inr hh.2.2.2.2.2⟩
  · obtain hh := textStep_some text i hi t j h
    exact ⟨hh.1, hh.2.1, hh.2.2.1, hh.2.2.2.1, hh.2.2.2.2.1, Or.inr hh.2.2.2.2.2⟩

lemma quoteStep_some (text : List Char) (i : Nat) (hi : i < text.length) (t : Token) (j : Nat)
    (h : quoteStep text i = (some t, j)) :
    t.start = i ∧ t.«end» = j ∧ i < j ∧ j ≤ text.length ∧
      t.value = jsSubstring text i j ∧ t.type = TokenType.quote := by
  have hqc : i + 1 ≤ quoteClose text (charAt text i) i :=
    findQuoteEnd_ge text (charAt text i) _ (i + 1)
  unfold quoteStep at h
  split at h
  · rename_i hcond
    obtain ⟨ht, hj⟩ := Prod.mk.injEq _ _ _ _ ▸ h
    obtain ht := Option.some.inj ht
    subst hj
    subst ht
    exact ⟨rfl, rfl, by omega, by omega, rfl, rfl⟩
  · obtain ⟨ht, hj⟩ := Prod.mk.injEq _ _ _ _ ▸ h
    obtain ht := Option.some.inj ht
    subst hj
    subst ht
    exact ⟨rfl, rfl, hi, le_refl _, (jsSubstring_all text i).symm, rfl⟩

lemma tokenizeStep_some (text : List Char) (i : Nat) (hi : i < text.length) (t : Token) (j : Nat)
    (h : tokenizeStep text i = (some t, j)) :
    t.start = i ∧ t.«end» = j ∧ i < j ∧ j ≤ text.length ∧
      t.value = jsSubstring text i j ∧ t.type ≠ TokenType.value := by
  unfold tokenizeStep at h
  split at h
  · simp at h
  · split at h
    · rename_i hp
      obtain ⟨ht, hj⟩ := Prod.mk.injEq _ _ _ _ ▸ h
      obtain ht := Option.some.inj ht
      subst hj
      subst ht
      exact ⟨rfl, rfl, Nat.lt_succ_self i, hi, (jsSubstring_single text i hi).symm, by simp⟩
    · split at h
      · rename_i hp he
        simp only [beq_iff_eq] at he
        obtain ⟨ht, hj⟩ := Prod.mk.injEq _ _ _ _ ▸ h
        obtain ht := Option.some.inj ht
        subst hj
        subst ht
        refine ⟨rfl, rfl, Nat.lt_succ_self i, hi, ?_, by simp⟩
        rw [jsSubstring_single text i hi, he]
      · split at h
        · obtain hh := quoteStep_some text i hi t j h
          exact ⟨hh.1, hh.2.1, hh.2.2.1, hh.2.2.2.1, hh.2.2.2.2.1, by rw [hh.2.2.2.2.2]; simp⟩
        · split at h
          · rename_i len hop
            obtain ⟨op, hmem, hlen, hmatch, _, _⟩ := tryOperators_some text i _ len hop
            have hpos : 0 < len := hlen ▸ opLen_pos op hmem
            have hle : i + len ≤ text.length := opMatch_le text i len op hmatch hlen hpos
            obtain ⟨ht, hj⟩ := Prod.mk.injEq _ _ _ _ ▸ h
            obtain ht := Option.some.inj ht
            subst hj
            subst ht
            exact ⟨rfl, rfl, by omega, hle, rfl, by simp⟩
          · obtain hh := keyOrTextStep_some text i hi t j h
            refine ⟨hh.1, hh.2.1, hh.2.2.1, hh.2.2.2.1, hh.2.2.2.2.1, ?_⟩
            rcases hh.2.2.2.2.2 with h' | h' <;> rw [h'] <;> simp

lemma tokenizeStep_none (text : List Char) (i : Nat) (hi : i < text.length) (j : Nat)
    (h : tokenizeStep text i = (none, j)) :
    j = i + 1 ∧ isWhitespace (charAt text i) = true := by
  unfold tokenizeStep at h
  split at h
  · rename_i hws
    exact ⟨(Prod.mk.injEq _ _ _ _ ▸ h).2.symm, hws⟩
  · rename_i hws
    split at h
    · simp at h
    · rename_i hparen
      split at h
      · simp at h
      · rename_i heq
        split at h
        · unfold quoteStep at h
          split at h <;> simp at h
        · rename_i hquote
          split at h
          · simp at h
          · simp only [Bool.not_eq_true] at hws
            simp only [Bool.or_eq_true, beq_iff_eq, not_or] at hparen hquote
            simp only [beq_iff_eq] at heq
            have htc : isTextChar (charAt text i) = true := by
              simp [isTextChar, hws, hparen.1, hparen.2, heq, hquote.1.1, hquote.1.2,
                hquote.2, bne_iff_ne]
            have hadv : i + 1 ≤ scanText text (text.length - i) i :=
              scanText_adv text i hi htc (text.length - i) (by omega)
            exfalso
            unfold keyOrTextStep textStep at h
            split at h
            · split at h
              · split at h
                · simp at h
                · rename_i hlt
                  split at h
                  · simp at h
                  · omega
              · split at h
                · simp at h
                · rename_i hlt
                  omega
            · split at h
              · simp at h
              · rename_i hlt
                omega

/-! ### The main-loop invariant -/

lemma jsSubstring_cons_left (text : List Char) (i b : Nat) (hib : i < b) (hb : b ≤ text.length) :
    jsSubstring text i b = charAt text i :: jsSubstring text (i + 1) b := by
  have hlen : i < (text.take b).length := by simp [List.length_take]; omega
  rw [jsSubstring, List.drop_eq_getElem_cons hlen, List.getElem_take,
    charAt_eq_getElem text i (by omega)]
  rfl

lemma spansOk_mono (text : List Char) (i i' : Nat) (hii : i ≤ i') :
    ∀ ts, spansOk text i' ts → spansOk text i ts := by
  intro ts h
  cases ts with
  | nil => exact le_trans hii h
  | cons t ts => exact ⟨le_trans hii h.1, h.2⟩

lemma gapsWhite_ws_extend (text : List Char) (i : Nat) (hin : i < text.length)
    (hws : isWhitespace (charAt text i) = true) :
    ∀ ts, spansOk text (i + 1) ts → gapsWhite text (i + 1) ts → gapsWhite text i ts := by
  intro ts hs hg
  cases ts with
  | nil =>
    simp only [gapsWhite] at hg ⊢
    intro c hc
    rw [List.drop_eq_getElem_cons hin, List.mem_cons] at hc
    rcases hc with hc | hc
    · rw [hc, ← charAt_eq_getElem text i hin]
      exact hws
    · exact hg c hc
  | cons t ts =>
    simp only [gapsWhite] at hg ⊢
    refine ⟨?_, hg.2⟩
    intro c hc
    have hib : i < t.start := lt_of_lt_of_le (Nat.lt_succ_self i) hs.1
    have hb : t.start ≤ text.length := le_trans (le_of_lt hs.2.1) hs.2.2.1
    rw [jsSubstring_cons_left text i t.start hib hb, List.mem_cons] at hc
    rcases hc with hc | hc
    · rw [hc]
      exact hws
    · exact hg.1 c hc

lemma tokenizeLoop_zero (text : List Char) (i : Nat) : tokenizeLoop text 0 i = [] := rfl

lemma tokenizeLoop_stop (text : List Char) (f i : Nat) (h : ¬ i < text.length) :
    tokenizeLoop text (f + 1) i = [] := by
  rw [tokenizeLoop, if_neg h]

lemma tokenizeLoop_succ_some (text : List Char) (f i j : Nat) (t : Token)
    (hin : i < text.length) (hstep : tokenizeStep text i = (some t, j)) :
    tokenizeLoop text (f + 1) i = t :: tokenizeLoop text f j := by
  rw [tokenizeLoop, if_pos hin, hstep]
  rfl

lemma tokenizeLoop_succ_none (text : List Char) (f i j : Nat)
    (hin : i < text.length) (hstep : tokenizeStep text i = (none, j)) :
    tokenizeLoop text (f + 1) i = tokenizeLoop text f j := by
  rw [tokenizeLoop, if_pos hin, hstep]
  rfl

lemma spansOk_nil_iff (text : List Char) (i : Nat) : spansOk text i [] ↔ i ≤ text.length :=
  Iff.rfl

lemma gapsWhite_at_end (text : List Char) : gapsWhite text text.length [] := by
  simp only [gapsWhite]
  intro c hc
  rw [List.drop_length] at hc
  simp at hc

lemma tokenizeLoop_inv (text : List Char) :
    ∀ fuel i, i ≤ text.length → text.length ≤ i + fuel →
      spansOk text i (tokenizeLoop text fuel i) ∧
      gapsWhite text i (tokenizeLoop text fuel i) ∧
      ∀ t ∈ tokenizeLoop text fuel i, t.type ≠ TokenType.value := by
  intro fuel
  induction fuel with
  | zero =>
    intro i h1 h2
    have hi : i = text.length := by omega
    subst hi
    rw [tokenizeLoop_zero]
    exact ⟨le_refl _, gapsWhite_at_end text, by simp⟩
  | succ f ih =>
    intro i h1 h2
    by_cases hin : i < text.length
    · rcases hstep : tokenizeStep text i with ⟨o, j⟩
      cases o with
      | none =>
        obtain ⟨hj, hws⟩ := tokenizeStep_none text i hin j hstep
        subst hj
        rw [tokenizeLoop_succ_none text f i (i + 1) hin hstep]
        obtain ⟨ih1, ih2, ih3⟩ := ih (i + 1) (by omega) (by omega)
        exact ⟨spansOk_mono text i (i + 1) (Nat.le_succ i) _ ih1,
          gapsWhite_ws_extend text i hin hws _ ih1 ih2, ih3⟩
      | some t =>
        obtain ⟨hs, he, hij, hjn, hval, htype⟩ := tokenizeStep_some text i hin t j hstep
        rw [tokenizeLoop_succ_some text f i j t hin hstep]
        obtain ⟨ih1, ih2, ih3⟩ := ih j hjn (by omega)
        refine ⟨⟨le_of_eq hs.symm, ?_, ?_, ?_, ?_⟩, ⟨?_, ?_⟩, ?_⟩
        · rw [hs, he]; exact hij
        · rw [he]; exact hjn
        · rw [hs, he]; exact hval
        · rw [he]; exact ih1
        · rw [hs, jsSubstring_nil]
          intro c hc
          simp at hc
        · rw [he]; exact ih2
        · intro t' ht'
          rw [List.mem_cons] at ht'
          rcases ht' with ht' | ht'
          · exact ht' ▸ htype
          · exact ih3 t' ht'
    · have hi : i = text.length := by omega
      subst hi
      rw [tokenizeLoop_stop text f _ hin]
      exact ⟨le_refl _, gapsWhite_at_end text, by simp⟩

lemma tokenizeLoop_fuel (text : List Char) :
    ∀ fuel₁ fuel₂ i, text.length - i ≤ fuel₁ → text.length - i ≤ fuel₂ →
      tokenizeLoop text fuel₁ i = tokenizeLoop text fuel₂ i := by
  intro fuel₁
  induction fuel₁ with
  | zero =>
    intro fuel₂ i h1 h2
    have hni : ¬ i < text.length := by omega
    cases fuel₂ with
    | zero => rfl
    | succ f => rw [tokenizeLoop_zero, tokenizeLoop_stop text f i hni]
  | succ f ih =>
    intro fuel₂ i h1 h2
    by_cases hin : i < text.length
    · cases fuel₂ with
      | zero => omega
      | succ f₂ =>
        rcases hstep : tokenizeStep text i with ⟨o, j⟩
        cases o with
        | none =>
          obtain ⟨hj, _⟩ := tokenizeStep_none text i hin j hstep
          rw [tokenizeLoop_succ_none text f i j hin hstep,
            tokenizeLoop_succ_none text f₂ i j hin hstep]
          exact ih f₂ j (by omega) (by omega)
        | some t =>
          obtain ⟨_, _, hij, hjn, _, _⟩ := tokenizeStep_some text i hin t j hstep
          rw [tokenizeLoop_succ_some text f i j t hin hstep,
            tokenizeLoop_succ_some text f₂ i j t hin hstep,
            ih f₂ j (by omega) (by omega)]
    · cases fuel₂ with
      | zero => rw [tokenizeLoop_zero, tokenizeLoop_stop text f i hin]
      | succ f₂ => rw [tokenizeLoop_stop text f i hin, tokenizeLoop_stop text f₂ i hin]

lemma tokenize_inv (text : List Char) :
    spansOk text 0 (tokenize text) ∧ gapsWhite text 0 (tokenize text) ∧
      ∀ t ∈ tokenize text, t.type ≠ TokenType.value :=
  tokenizeLoop_inv text text.length 0 (Nat.zero_le _) (by omega)

/-! ### Escaping, tag stripping and unescaping -/

lemma jsReplaceAll_append (c : Char) (s a b : List Char) :
    jsReplaceAll c s (a ++ b) = jsReplaceAll c s a ++ jsReplaceAll c s b := by
  induction a with
  | nil => rfl
  | cons x xs ih => simp [jsReplaceAll, ih]

lemma escapeHtml_nil : escapeHtml [] = [] := rfl

lemma escapeHtml_append (a b : List Char) :
    escapeHtml (a ++ b) = escapeHtml a ++ escapeHtml b := by
  simp [escapeHtml, jsReplaceAll_append]

lemma escapeHtml_single (c : Char) : escapeHtml [c] = escChar c := by
  by_cases h1 : c = '&'
  · subst h1; rfl
  by_cases h2 : c = '<'
  · subst h2; rfl
  by_cases h3 : c = '>'
  · subst h3; rfl
  by_cases h4 : c = '"'
  · subst h4; rfl
  by_cases h5 : c = '\''
  · subst h5; rfl
  simp [escapeHtml, jsReplaceAll, escChar, h1, h2, h3, h4, h5]

lemma escapeHtml_cons (c : Char) (s : List Char) :
    escapeHtml (c :: s) = escChar c ++ escapeHtml s := by
  have h : c :: s = [c] ++ s := rfl
  rw [h, escapeHtml_append, escapeHtml_single]

lemma all_ne_of_all_bne (l : List Char) (c : Char)
    (hall : l.all (fun x => x != c) = true) : ∀ x ∈ l, x ≠ c := by
  intro x hx
  have h := List.all_eq_true.mp hall x hx
  simpa [bne_iff_ne] using h

lemma escChar_noAngle (c : Char) : ∀ x ∈ escChar c, x ≠ '<' ∧ x ≠ '>' := by
  unfold escChar
  split_ifs with h1 h2 h3 h4 h5
  · intro x hx
    exact ⟨all_ne_of_all_bne _ _ (by decide) x hx, all_ne_of_all_bne _ _ (by decide) x hx⟩
  · intro x hx
    exact ⟨all_ne_of_all_bne _ _ (by decide) x hx, all_ne_of_all_bne _ _ (by decide) x hx⟩
  · intro x hx
    exact ⟨all_ne_of_all_bne _ _ (by decide) x hx, all_ne_of_all_bne _ _ (by decide) x hx⟩
  · intro x hx
    exact ⟨all_ne_of_all_bne _ _ (by decide) x hx, all_ne_of_all_bne _ _ (by decide) x hx⟩
  · intro x hx
    exact ⟨all_ne_of_all_bne _ _ (by decide) x hx, all_ne_of_all_bne _ _ (by decide) x hx⟩
  · intro x hx
    rw [List.mem_singleton] at hx
    subst hx
    exact ⟨h2, h3⟩

lemma escapeHtml_noAngle (s : List Char) : ∀ x ∈ escapeHtml s, x ≠ '<' ∧ x ≠ '>' := by
  induction s with
  | nil => intro x hx; rw [escapeHtml_nil] at hx; simp at hx
  | cons c cs ih =>
    intro x hx
    rw [escapeHtml_cons, List.mem_append] at hx
    rcases hx with hx | hx
    · exact escChar_noAngle c x hx
    · exact ih x hx

lemma strip_clean_append (s rest : List Char) (h : ∀ x ∈ s, x ≠ '<' ∧ x ≠ '>') :
    stripTagsAux (s ++ rest) false = s ++ stripTagsAux rest false := by
  induction s with
  | nil => rfl
  | cons c cs ih =>
    have hc : c ≠ '<' := (h c (by simp)).1
    simp only [List.cons_append, stripTagsAux, if_neg hc, List.append_eq]
    rw [ih (fun x hx => h x (by simp [hx]))]

lemma strip_tag_skip (s rest : List Char) (h : ∀ x ∈ s, x ≠ '>') :
    stripTagsAux (s ++ '>' :: rest) true = stripTagsAux rest false := by
  induction s with
  | nil => simp [stripTagsAux]
  | cons c cs ih =>
    have hc : c ≠ '>' := h c (by simp)
    simp only [List.cons_append, stripTagsAux, if_neg hc, List.append_eq]
    exact ih (fun x hx => h x (by simp [hx]))

lemma spanOpen_decomp (t : TokenType) (rest : List Char) :
    spanOpen t ++ rest = '<' :: (spanMid t ++ '>' :: rest) := by
  cases t <;> rfl

lemma spanMid_no_gt (t : TokenType) : ∀ x ∈ spanMid t, x ≠ '>' := by
  have h : (spanMid t).all (fun x => x != '>') = true := by cases t <;> decide
  exact all_ne_of_all_bne _ _ h

lemma strip_spanOpen (t : TokenType) (rest : List Char) :
    stripTagsAux (spanOpen t ++ rest) false = stripTagsAux rest false := by
  rw [spanOpen_decomp]
  show stripTagsAux ('<' :: (spanMid t ++ '>' :: rest)) false = _
  simp only [stripTagsAux, if_pos rfl]
  exact strip_tag_skip (spanMid t) rest (spanMid_no_gt t)

lemma strip_spanClose (rest : List Char) :
    stripTagsAux (spanClose ++ rest) false = stripTagsAux rest false := by
  have h : spanClose ++ rest = '<' :: (['/', 's', 'p', 'a', 'n'] ++ '>' :: rest) := rfl
  rw [h]
  simp only [stripTagsAux, if_pos rfl]
  exact strip_tag_skip ['/', 's', 'p', 'a', 'n'] rest
    (all_ne_of_all_bne ['/', 's', 'p', 'a', 'n'] '>' (by decide))

lemma strip_renderToken (t : Token) (rest : List Char) :
    stripTagsAux (renderToken t ++ rest) false =
      escapeHtml t.value ++ stripTagsAux rest false := by
  rw [renderToken, List.append_assoc, List.append_assoc, strip_spanOpen,
    strip_clean_append _ _ (escapeHtml_noAngle t.value), strip_spanClose]

lemma unescape_nil : unescapeHtmlSpec [] = [] := by
  simp [unescapeHtmlSpec]

lemma unescape_cons_ne (c : Char) (hc : c ≠ '&') (l : List Char) :
    unescapeHtmlSpec (c :: l) = c :: unescapeHtmlSpec l := by
  simp only [unescapeHtmlSpec]
  rw [if_neg (fun hcm => hc hcm.1), if_neg (fun hcm => hc hcm.1),
    if_neg (fun hcm => hc hcm.1), if_neg (fun hcm => hc hcm.1),
    if_neg (fun hcm => hc hcm.1)]

lemma take_append_head {x y : Char} {l m r : List Char} (hxy : x ≠ y) (k : Nat) :
    (x :: l ++ r).take (k + 1) ≠ y :: m := by
  intro h
  rw [List.cons_append, List.take_succ_cons] at h
  injection h with h1 _
  exact hxy h1

lemma unescape_amp (r : List Char) :
    unescapeHtmlSpec (ampEnt ++ r) = '&' :: unescapeHtmlSpec r := by
  have hd : ampEnt ++ r = '&' :: ("amp;".data ++ r) := rfl
  rw [hd]
  simp only [unescapeHtmlSpec]
  rw [if_pos ⟨by decide, by rw [show (4 : Nat) = ("amp;".data).length from rfl, List.take_left]⟩]
  rfl

lemma unescape_lt (r : List Char) :
    unescapeHtmlSpec (ltEnt ++ r) = '<' :: unescapeHtmlSpec r := by
  have hd : ltEnt ++ r = '&' :: ("lt;".data ++ r) := rfl
  rw [hd]
  simp only [unescapeHtmlSpec]
  rw [if_neg (fun hcm => take_append_head (by decide) 3 hcm.2),
    if_pos ⟨by decide, by rw [show (3 : Nat) = ("lt;".data).length from rfl, List.take_left]⟩]
  rfl

lemma unescape_gt (r : List Char) :
    unescapeHtmlSpec (gtEnt ++ r) = '>' :: unescapeHtmlSpec r := by
  have hd : gtEnt ++ r = '&' :: ("gt;".data ++ r) := rfl
  rw [hd]
  simp only [unescapeHtmlSpec]
  rw [if_neg (fun hcm => take_append_head (by decide) 3 hcm.2),
    if_neg (fun hcm => take_append_head (by decide) 2 hcm.2),
    if_pos ⟨by decide, by rw [show (3 : Nat) = ("gt;".data).length from rfl, List.take_left]⟩]
  rfl

lemma unescape_quot (r : List Char) :
    unescapeHtmlSpec (quotEnt ++ r) = '"' :: unescapeHtmlSpec r := by
  have hd : quotEnt ++ r = '&' :: ("quot;".data ++ r) := rfl
  rw [hd]
  simp only [unescapeHtmlSpec]
  rw [if_neg (fun hcm => take_append_head (by decide) 3 hcm.2),
    if_neg (fun hcm => take_append_head (by decide) 2 hcm.2),
    if_neg (fun hcm => take_append_head (by decide) 2 hcm.2),
    if_pos ⟨by decide, by rw [show (5 : Nat) = ("quot;".data).length from rfl, List.take_left]⟩]
  rfl

lemma unescape_apos (r : List Char) :
    unescapeHtmlSpec (aposEnt ++ r) = '\'' :: unescapeHtmlSpec r := by
  have hd : aposEnt ++ r = '&' :: ("#039;".data ++ r) := rfl
  rw [hd]
  simp only [unescapeHtmlSpec]
  rw [if_neg (fun hcm => take_append_head (by decide) 3 hcm.2),
    if_neg (fun hcm => take_append_head (by decide) 2 hcm.2),
    if_neg (fun hcm => take_append_head (by decide) 2 hcm.2),
    if_neg (fun hcm => take_append_head (by decide) 4 hcm.2),
    if_pos ⟨by decide, by rw [show (5 : Nat) = ("#039;".data).length from rfl, List.take_left]⟩]
  rfl

lemma unescape_escape (s r : List Char) :
    unescapeHtmlSpec (escapeHtml s ++ r) = s ++ unescapeHtmlSpec r := by
  induction s with
  | nil => rw [escapeHtml_nil]; simp [unescapeHtmlSpec]
  | cons c cs ih =>
    rw [escapeHtml_cons, List.append_assoc]
    by_cases h1 : c = '&'
    · subst h1
      rw [show escChar '&' = ampEnt from rfl, unescape_amp, ih]
      rfl
    by_cases h2 : c = '<'
    · subst h2
      rw [show escChar '<' = ltEnt from rfl, unescape_lt, ih]
      rfl
    by_cases h3 : c = '>'
    · subst h3
      rw [show escChar '>' = gtEnt from rfl, unescape_gt, ih]
      rfl
    by_cases h4 : c = '"'
    · subst h4
      rw [show escChar '"' = quotEnt from rfl, unescape_quot, ih]
      rfl
    by_cases h5 : c = '\''
    · subst h5
      rw [show escChar '\'' = aposEnt from rfl, unescape_apos, ih]
      rfl
    have hesc : escChar c = [c] := by simp [escChar, h1, h2, h3, h4, h5]
    rw [hesc, List.singleton_append, unescape_cons_ne c h1, ih]
    rfl

/-! ### The render round trip -/

lemma strip_unescape_renderLoop (text : List Char) :
    ∀ toks i, spansOk text i toks →
      unescapeHtmlSpec (stripTagsAux (renderLoop text toks i) false) = text.drop i := by
  intro toks
  induction toks with
  | nil =>
    intro i hs
    simp only [renderLoop]
    split
    · rw [← List.append_nil (escapeHtml (text.drop i)),
        strip_clean_append _ _ (escapeHtml_noAngle (text.drop i)),
        show stripTagsAux [] false = [] from rfl, unescape_escape (text.drop i) [],
        unescape_nil, List.append_nil]
    · have hnil : text.drop i = [] := List.drop_eq_nil_of_le (by omega)
      rw [hnil, show stripTagsAux [] false = [] from rfl, unescape_nil]
  | cons t ts ih =>
    intro i hs
    obtain ⟨h1, h2, h3, h4, h5⟩ := hs
    simp only [renderLoop]
    by_cases hfill : i < t.start
    · rw [if_pos hfill, List.append_assoc,
        strip_clean_append _ _ (escapeHtml_noAngle _), strip_renderToken,
        unescape_escape, unescape_escape, ih t.«end» h5, h4]
      conv_rhs => rw [drop_segment text i t.start (le_of_lt hfill) (by omega),
        drop_segment text t.start t.«end» (le_of_lt h2) h3]
    · have hstart : t.start = i := by omega
      rw [if_neg hfill, List.nil_append, strip_renderToken, unescape_escape,
        ih t.«end» h5, h4, hstart]
      conv_rhs => rw [drop_segment text i t.«end» (by omega) h3]

/-! ### Support lemmas for the individual claims -/

lemma spansOk_props (text : List Char) :
    ∀ ts i, spansOk text i ts →
      List.Chain' (fun a b => a.«end» ≤ b.start) ts ∧
      List.Chain' (fun a b => a.start < b.start) ts ∧
      ∀ t ∈ ts, t.start < t.«end» ∧ t.«end» ≤ text.length ∧
        t.value = jsSubstring text t.start t.«end» := by
  intro ts
  induction ts with
  | nil => intro i h; exact ⟨List.chain'_nil, List.chain'_nil, by simp⟩
  | cons t ts ih =>
    intro i h
    obtain ⟨h1, h2, h3, h4, h5⟩ := h
    obtain ⟨c1, c2, props⟩ := ih t.«end» h5
    have hhead : ∀ u, ts = u :: (ts.tail) → t.«end» ≤ u.start ∧ t.start < u.start := by
      intro u hu
      rw [hu] at h5
      exact ⟨h5.1, lt_of_lt_of_le h2 h5.1⟩
    refine ⟨?_, ?_, ?_⟩
    · cases ts with
      | nil => simp
      | cons u us =>
        rw [List.chain'_cons]
        exact ⟨(hhead u rfl).1, c1⟩
    · cases ts with
      | nil => simp
      | cons u us =>
        rw [List.chain'_cons]
        exact ⟨(hhead u rfl).2, c2⟩
    · intro u hu
      rw [List.mem_cons] at hu
      rcases hu with hu | hu
      · exact hu ▸ ⟨h2, h3, h4⟩
      · exact props u hu

lemma gaps_pointwise (text : List Char) :
    ∀ ts i j c, spansOk text i ts → gapsWhite text i ts → i ≤ j →
      text.get? j = some c →
      (∀ t ∈ ts, ¬(t.start ≤ j ∧ j < t.«end»)) → isWhitespace c = true := by
  intro ts
  induction ts with
  | nil =>
    intro i j c hs hg hij hget huncov
    apply hg c
    have h : (text.drop i).get? (j - i) = some c := by
      rw [List.get?_drop, show i + (j - i) = j from by omega]
      exact hget
    exact List.get?_mem h
  | cons t ts ih =>
    intro i j c hs hg hij hget huncov
    obtain ⟨h1, h2, h3, h4, h5⟩ := hs
    have hnc := huncov t (by simp)
    rcases Nat.lt_or_ge j t.start with hlt | hge
    · apply hg.1 c
      have h : (jsSubstring text i t.start).get? (j - i) = some c := by
        rw [jsSubstring, List.get?_drop, show i + (j - i) = j from by omega,
          List.get?_take hlt]
        exact hget
      exact List.get?_mem h
    · have hge2 : t.«end» ≤ j := by
        rcases Nat.lt_or_ge j t.«end» with h' | h'
        · exact absurd ⟨hge, h'⟩ hnc
        · exact h'
      exact ih t.«end» j c h5 hg.2 hge2 hget (fun u hu => huncov u (by simp [hu]))

lemma tokenizeStep_logicalOperator (text : List Char) (i : Nat) (hi : i < text.length)
    (t : Token) (j : Nat) (h : tokenizeStep text i = (some t, j))
    (ht : t.type = TokenType.logicalOperator) :
    ∃ len, tryOperators text i logicalOperators = some len ∧
      t = ⟨TokenType.logicalOperator, jsSubstring text i (i + len), i, i + len⟩ ∧
      j = i + len := by
  unfold tokenizeStep at h
  split at h
  · simp at h
  · split at h
    · obtain ⟨ht', hj⟩ := Prod.mk.injEq _ _ _ _ ▸ h
      obtain ht' := Option.some.inj ht'
      rw [← ht'] at ht
      simp at ht
    · split at h
      · obtain ⟨ht', hj⟩ := Prod.mk.injEq _ _ _ _ ▸ h
        obtain ht' := Option.some.inj ht'
        rw [← ht'] at ht
        simp at ht
      · split at h
        · obtain hh := quoteStep_some text i hi t j h
          rw [hh.2.2.2.2.2] at ht
          simp at ht
        · split at h
          · rename_i len hop
            obtain ⟨ht', hj⟩ := Prod.mk.injEq _ _ _ _ ▸ h
            obtain ht' := Option.some.inj ht'
            exact ⟨len, hop, ht'.symm, hj.symm⟩
          · obtain hh := keyOrTextStep_some text i hi t j h
            rcases hh.2.2.2.2.2 with h' | h' <;> rw [h'] at ht <;> simp at ht

lemma tokenizeStep_quote (text : List Char) (i : Nat)
    (hq : charAt text i = '"' ∨ charAt text i = '\'' ∨ charAt text i = '”') :
    tokenizeStep text i = quoteStep text i := by
  have hws : ¬(isWhitespace (charAt text i) = true) := by
    rcases hq with h | h | h <;> rw [h] <;> decide
  have hp : ¬((charAt text i == '(' || charAt text i == ')') = true) := by
    rcases hq with h | h | h <;> rw [h] <;> decide
  have he : ¬((charAt text i == '=') = true) := by
    rcases hq with h | h | h <;> rw [h] <;> decide
  have hqq : (charAt text i == '"' || charAt text i == '\'' || charAt text i == '”') = true := by
    rcases hq with h | h | h <;> rw [h] <;> decide
  unfold tokenizeStep
  rw [if_neg hws, if_neg hp, if_neg he, if_pos hqq]

lemma tokenizeStep_key (text : List Char) (i : Nat)
    (hws : isWhitespace (charAt text i) = false)
    (hp1 : charAt text i ≠ '(') (hp2 : charAt text i ≠ ')')
    (he : charAt text i ≠ '=')
    (hq1 : charAt text i ≠ '"') (hq2 : charAt text i ≠ '\'') (hq3 : charAt text i ≠ '”')
    (hop : tryOperators text i logicalOperators = none)
    (hlen : i + 1 < text.length)
    (heq : eqPos text i < text.length)
    (hkey : i < keyEndPos text i) :
    tokenizeStep text i = (some ⟨TokenType.key, jsSubstring text i (keyEndPos text i), i,
      keyEndPos text i⟩, keyEndPos text i) := by
  have hceq : charAt text (eqPos text i) = '=' :=
    (findEq_spec text (text.length - i) i (by omega)).2 heq
  unfold tokenizeStep
  rw [if_neg (by simp [hws]), if_neg (by simp [hp1, hp2]), if_neg (by simp [he]),
    if_neg (by simp [hq1, hq2, hq3]), hop]
  show keyOrTextStep text i = _
  unfold keyOrTextStep
  rw [if_pos hlen, if_pos ⟨heq, hceq⟩, if_pos hkey]

/-! ### The claims -/

/-- C1: for every input string `text`, stripping the wrapper tags from
`render(text, tokenize(text))` and undoing the entity escaping yields exactly
`text`: the renderer emits, in input order, the escaped filler gap before each
token, the escaped token content wrapped in a type-tagged container, and the
escaped trailing filler, so the concatenation of the unescaped pieces is
byte-for-byte equal to the original input. -/
theorem c1_render_round_trip (text : List Char) :
    unescapeHtmlSpec (strip_tags (parseAndHighlight text)) = text := by
  have h := strip_unescape_renderLoop text (tokenize text) 0 (tokenize_inv text).1
  rw [List.drop_zero] at h
  exact h

/-- C2: for every input string, the token sequence produced by `tokenize` is
well-formed: tokens are sorted by start in strictly increasing order and
non-overlapping (each token's end is at most the next token's start), every
token's span is non-empty with `0 ≤ start < end ≤ length`, and every token's
content equals exactly the substring `input[start:end]`. -/
theorem c2_token_invariants (text : List Char) :
    List.Chain' (fun a b => a.«end» ≤ b.start) (tokenize text) ∧
    List.Chain' (fun a b => a.start < b.start) (tokenize text) ∧
    ∀ t ∈ tokenize text, t.start < t.«end» ∧ t.«end» ≤ text.length ∧
      t.value = jsSubstring text t.start t.«end» :=
  spansOk_props text (tokenize text) 0 (tokenize_inv text).1

theorem c2_token_invariants_witness :
    (⟨TokenType.text, ['a'], 0, 1⟩ : Token).start < (⟨TokenType.text, ['a'], 0, 1⟩ : Token).«end» :=
  ((c2_token_invariants ['a', ' ', 'b']).2.2 ⟨TokenType.text, ['a'], 0, 1⟩ (by decide)).1

/-- C3: `tokenize` is total and terminates on every input: every iteration of
the scan loop strictly advances the cursor (and never moves it past the end),
so `text.length - i` iterations of fuel always suffice — the loop result is
unchanged by any larger fuel — and `tokenize` runs the loop with fuel
`text.length` from cursor 0. -/
theorem c3_termination (text : List Char) :
    (∀ i, i < text.length →
      i < (tokenizeStep text i).2 ∧ (tokenizeStep text i).2 ≤ text.length) ∧
    (∀ fuel i, text.length - i ≤ fuel →
      tokenizeLoop text fuel i = tokenizeLoop text (text.length - i) i) ∧
    tokenize text = tokenizeLoop text text.length 0 := by
  refine ⟨?_, ?_, rfl⟩
  · intro i hi
    rcases hstep : tokenizeStep text i with ⟨o, j⟩
    cases o with
    | none =>
      obtain ⟨hj, _⟩ := tokenizeStep_none text i hi j hstep
      exact ⟨by omega, by omega⟩
    | some t =>
      obtain ⟨_, _, hij, hjn, _, _⟩ := tokenizeStep_some text i hi t j hstep
      exact ⟨hij, hjn⟩
  · intro fuel i hf
    exact tokenizeLoop_fuel text fuel (text.length - i) i hf (le_refl _)

theorem c3_termination_witness :
    0 < (tokenizeStep ['a'] 0).2 ∧
      tokenizeLoop ['a'] 7 0 = tokenizeLoop ['a'] (['a'].length - 0) 0 :=
  ⟨((c3_termination ['a']).1 0 (by decide)).1,
   (c3_termination ['a']).2.1 7 0 (by decide)⟩

/-- C4: the escaping primitive replaces exactly the five characters
`& < > " '` with their entity forms, ampersand first and then the others in
the fixed order `< > " '`; it is applied to every piece of raw input text
inserted into the rendered output (both filler gaps and token contents), and
an input containing `<script>` renders with `&lt;script&gt;`, never raw. -/
theorem c4_escaping :
    escapeHtml ['&'] = ampEnt ∧ escapeHtml ['<'] = ltEnt ∧ escapeHtml ['>'] = gtEnt ∧
    escapeHtml ['"'] = quotEnt ∧ escapeHtml ['\''] = aposEnt ∧
    (∀ c, c ≠ '&' → c ≠ '<' → c ≠ '>' → c ≠ '"' → c ≠ '\'' → escapeHtml [c] = [c]) ∧
    (∀ s, escapeHtml s =
      jsReplaceAll '\'' aposEnt (jsReplaceAll '"' quotEnt (jsReplaceAll '>' gtEnt
        (jsReplaceAll '<' ltEnt (jsReplaceAll '&' ampEnt s))))) ∧
    (∀ c s, escapeHtml (c :: s) = escChar c ++ escapeHtml s) ∧
    (∀ tok : Token, renderToken tok = spanOpen tok.type ++ escapeHtml tok.value ++ spanClose) ∧
    (∀ text toks lastPos (tok : Token), renderLoop text (tok :: toks) lastPos =
      (if lastPos < tok.start then escapeHtml (jsSubstring text lastPos tok.start) else []) ++
      renderToken tok ++ renderLoop text toks tok.«end») ∧
    (∀ text lastPos, renderLoop text ([] : List Token) lastPos =
      if lastPos < text.length then escapeHtml (text.drop lastPos) else []) ∧
    parseAndHighlight ['<', 's', 'c', 'r', 'i', 'p', 't', '>'] =
      "<span class=\"token-text\">&lt;script&gt;</span>".data := by
  refine ⟨rfl, rfl, rfl, rfl, rfl, ?_, fun s => rfl, escapeHtml_cons, fun tok => rfl,
    fun _ _ _ _ => rfl, fun _ _ => rfl, by decide⟩
  intro c h1 h2 h3 h4 h5
  rw [escapeHtml_single]
  simp [escChar, h1, h2, h3, h4, h5]

theorem c4_escaping_witness : escapeHtml ['x'] = ['x'] :=
  c4_escaping.2.2.2.2.2.1 'x' (by decide) (by decide) (by decide) (by decide) (by decide)

/-- C5: when the cursor sits on one of the three quote characters (`"`, `'` or
`”`), the tokenizer emits a single quote token that ends at the first later
occurrence of the same quote character whose immediately preceding character is
not a backslash, spanning opening through closing quote inclusive; if no such
closing quote exists the token instead spans to the end of the input, with no
error.  In particular `key="a \"b\" c"` closes only at the final unescaped
quote, absorbing both escaped inner quotes. -/
theorem c5_quote_rule (text : List Char) (i : Nat) (hi : i < text.length)
    (hq : charAt text i = '"' ∨ charAt text i = '\'' ∨ charAt text i = '”') :
    (i + 1 ≤ quoteClose text (charAt text i) i) ∧
    (∀ k, i + 1 ≤ k → k < quoteClose text (charAt text i) i →
      charAt text k ≠ charAt text i ∨ (0 < k ∧ charAt text (k - 1) = '\\')) ∧
    (quoteClose text (charAt text i) i < text.length →
      charAt text (quoteClose text (charAt text i) i) = charAt text i ∧
      ¬(0 < quoteClose text (charAt text i) i ∧
        charAt text (quoteClose text (charAt text i) i - 1) = '\\') ∧
      tokenizeStep text i = (some ⟨TokenType.quote,
        jsSubstring text i (quoteClose text (charAt text i) i + 1), i,
        quoteClose text (charAt text i) i + 1⟩,
        quoteClose text (charAt text i) i + 1)) ∧
    (text.length ≤ quoteClose text (charAt text i) i →
      tokenizeStep text i = (some ⟨TokenType.quote, text.drop i, i, text.length⟩,
        text.length)) ∧
    tokenize ['k', 'e', 'y', '=', '"', 'a', ' ', '\\', '"', 'b', '\\', '"', ' ', 'c', '"'] =
      [⟨TokenType.key, ['k', 'e', 'y'], 0, 3⟩, ⟨TokenType.equals, ['='], 3, 4⟩,
       ⟨TokenType.quote, ['"', 'a', ' ', '\\', '"', 'b', '\\', '"', ' ', 'c', '"'], 4, 15⟩] := by
  have hspec := findQuoteEnd_spec text (charAt text i) (text.length - (i + 1)) (i + 1)
    (by omega)
  have hstep := tokenizeStep_quote text i hq
  refine ⟨findQuoteEnd_ge text (charAt text i) _ (i + 1), hspec.1, ?_, ?_, by decide⟩
  · intro hlt
    obtain ⟨hcq, hnb⟩ := hspec.2 hlt
    refine ⟨hcq, hnb, ?_⟩
    rw [hstep]
    unfold quoteStep
    rw [if_pos ⟨hlt, hcq⟩]
  · intro hge
    rw [hstep]
    unfold quoteStep
    rw [if_neg (fun hc => absurd hc.1 (by omega))]

theorem c5_quote_rule_witness : 0 + 1 ≤ quoteClose ['"'] (charAt ['"'] 0) 0 :=
  (c5_quote_rule ['"'] 0 (by decide) (by decide)).1

/-- C6: the words AND, OR, NOT (tried in that fixed order, case-insensitively)
are emitted as logical-operator tokens only when matched as whole words: the
character immediately before the match, if any, is whitespace, and the
character immediately after, if any, is whitespace or end of input; the token
preserves the original casing and length.  `"AND"` alone yields one
logical-operator token, `"ANDROID"` one text token. -/
theorem c6_operator_rule (text : List Char) (i : Nat) (t : Token) (j : Nat)
    (hi : i < text.length) (h : tokenizeStep text i = (some t, j))
    (ht : t.type = TokenType.logicalOperator) :
    (∃ op ∈ logicalOperators, op.length = t.«end» - t.start ∧ t.start = i ∧ t.«end» = j ∧
      t.value = jsSubstring text i (i + op.length) ∧
      (jsSubstr text i op.length).map Char.toUpper = op ∧
      (i = 0 ∨ isWhitespace (charAt text (i - 1)) = true) ∧
      (text.length ≤ i + op.length ∨ isWhitespace (charAt text (i + op.length)) = true)) ∧
    tokenize ['A', 'N', 'D'] = [⟨TokenType.logicalOperator, ['A', 'N', 'D'], 0, 3⟩] ∧
    tokenize ['A', 'N', 'D', 'R', 'O', 'I', 'D'] =
      [⟨TokenType.text, ['A', 'N', 'D', 'R', 'O', 'I', 'D'], 0, 7⟩] := by
  refine ⟨?_, by decide, by decide⟩
  obtain ⟨len, hop, hteq, hj⟩ := tokenizeStep_logicalOperator text i hi t j h ht
  obtain ⟨op, hmem, hlen, hmatch, hbefore, hafter⟩ := tryOperators_some text i _ len hop
  subst hj
  subst hteq
  refine ⟨op, hmem, ?_, rfl, rfl, ?_, hmatch, hbefore, hafter⟩
  · show op.length = (i + len) - i
    omega
  · show jsSubstring text i (i + len) = jsSubstring text i (i + op.length)
    rw [hlen]

theorem c6_operator_rule_witness :
    tokenize ['A', 'N', 'D'] = [⟨TokenType.logicalOperator, ['A', 'N', 'D'], 0, 3⟩] :=
  (c6_operator_rule ['A', 'N', 'D'] 0 ⟨TokenType.logicalOperator, ['A', 'N', 'D'], 0, 3⟩ 3
    (by decide) (by decide) rfl).2.1

/-- C7: when the cursor sits on a non-whitespace, non-special character, the
operator rule fails, and an `=` occurs later in the input, the tokenizer emits
a key token from the cursor up to that `=` trimmed of the whitespace
immediately before it (provided the trimmed span is non-empty), and advances
the cursor to the trimmed end; `"status = active"` tokenizes into
`key "status"`, `equals "="`, `text "active"`. -/
theorem c7_key_rule (text : List Char) (i : Nat)
    (hws : isWhitespace (charAt text i) = false)
    (hp1 : charAt text i ≠ '(') (hp2 : charAt text i ≠ ')')
    (he : charAt text i ≠ '=')
    (hq1 : charAt text i ≠ '"') (hq2 : charAt text i ≠ '\'') (hq3 : charAt text i ≠ '”')
    (hop : tryOperators text i logicalOperators = none)
    (hlen : i + 1 < text.length)
    (heq : eqPos text i < text.length)
    (hkey : i < keyEndPos text i) :
    tokenizeStep text i = (some ⟨TokenType.key, jsSubstring text i (keyEndPos text i), i,
        keyEndPos text i⟩, keyEndPos text i) ∧
    charAt text (eqPos text i) = '=' ∧
    (∀ k, i ≤ k → k < eqPos text i → charAt text k ≠ '=') ∧
    (∀ k, keyEndPos text i ≤ k → k < eqPos text i → isWhitespace (charAt text k) = true) ∧
    keyEndPos text i ≤ eqPos text i ∧
    tokenize ['s', 't', 'a', 't', 'u', 's', ' ', '=', ' ', 'a', 'c', 't', 'i', 'v', 'e'] =
      [⟨TokenType.key, ['s', 't', 'a', 't', 'u', 's'], 0, 6⟩,
       ⟨TokenType.equals, ['='], 7, 8⟩,
       ⟨TokenType.text, ['a', 'c', 't', 'i', 'v', 'e'], 9, 15⟩] := by
  have hspec := findEq_spec text (text.length - i) i (by omega)
  exact ⟨tokenizeStep_key text i hws hp1 hp2 he hq1 hq2 hq3 hop hlen heq hkey,
    hspec.2 heq, hspec.1, fun k hk1 hk2 => trimBack_ws text i _ _ k hk1 hk2,
    trimBack_le text i _ _, by decide⟩

theorem c7_key_rule_witness : charAt ['a', '=', 'b'] (eqPos ['a', '=', 'b'] 0) = '=' :=
  (c7_key_rule ['a', '=', 'b'] 0 (by decide) (by decide) (by decide) (by decide) (by decide)
    (by decide) (by decide) (by decide) (by decide) (by decide) (by decide)).2.1

/-- C8: the key lookahead scans unboundedly forward for the next `=` with no
check for intervening parentheses, quotes, or operators, so a key span can
swallow structural characters: for `"(status = x) = y"` the tokenizer emits,
after the equals token following `status`, a key token with content `"x)"`
including the closing parenthesis, and the only parenthesis token of the whole
sequence is the opening one at position 0. -/
theorem c8_key_lookahead_overreach :
    tokenize ['(', 's', 't', 'a', 't', 'u', 's', ' ', '=', ' ', 'x', ')', ' ', '=', ' ', 'y'] =
      [⟨TokenType.parenthesis, ['('], 0, 1⟩,
       ⟨TokenType.key, ['s', 't', 'a', 't', 'u', 's'], 1, 7⟩,
       ⟨TokenType.equals, ['='], 8, 9⟩,
       ⟨TokenType.key, ['x', ')'], 10, 12⟩,
       ⟨TokenType.equals, ['='], 13, 14⟩,
       ⟨TokenType.text, ['y'], 15, 16⟩] ∧
    (tokenize
        ['(', 's', 't', 'a', 't', 'u', 's', ' ', '=', ' ', 'x', ')', ' ', '=', ' ', 'y']).filter
        (fun t => decide (t.type = TokenType.parenthesis)) =
      [⟨TokenType.parenthesis, ['('], 0, 1⟩] :=
  ⟨by decide, by decide⟩

/-- C9: for every input string, no token emitted by the tokenizer has type
`value`, even though `value` is a member of the token-type enumeration. -/
theorem c9_no_value_tokens (text : List Char) :
    ∀ t ∈ tokenize text, t.type ≠ TokenType.value :=
  (tokenize_inv text).2.2

theorem c9_no_value_tokens_witness :
    (⟨TokenType.text, ['a'], 0, 1⟩ : Token).type ≠ TokenType.value :=
  c9_no_value_tokens ['a'] ⟨TokenType.text, ['a'], 0, 1⟩ (by decide)

/-- C10: for every input string, every character position not covered by any
emitted token's span holds a whitespace character: non-whitespace characters
are always inside some token's span, so the verbatim-copied filler in the
rendered output is always pure whitespace. -/
theorem c10_gaps_whitespace (text : List Char) (j : Nat) (c : Char)
    (hget : text.get? j = some c)
    (huncov : ∀ t ∈ tokenize text, ¬(t.start ≤ j ∧ j < t.«end»)) :
    isWhitespace c = true :=
  gaps_pointwise text (tokenize text) 0 j c (tokenize_inv text).1 (tokenize_inv text).2.1
    (Nat.zero_le j) hget huncov

theorem c10_gaps_whitespace_witness : isWhitespace ' ' = true :=
  c10_gaps_whitespace ['a', ' '] 1 ' ' (by decide) (by decide)

end HighlightedTextarea
